import Mathlib

/-!
Verification of the silence-region extraction logic of the
aws-healthscribe-demo repository.

Two pieces of code are embedded:

* `removeSilence` (src/src/emails/welcome.tsx, lines 127-191): the scan loop
  over `channelData` that collects index runs classified as silence
  (lines 136-157), together with the totals computed from those segments
  (lines 159-160).  The loop is embedded faithfully, including the facts
  that the run open at the end of the scan is never closed and that the
  collected segments are the *silent* runs.

* `extractSilenceRegions`: the silence-extraction operation of the spec
  (section 4.1).  The application imports it as `extractRegions` from
  `./extractRegions` (Welcome.tsx line 132 and two further callers), but
  that module is not part of the provided sources; the only in-source body
  with that name is the worker stub in part_006 lines 124-128, which is
  explicitly labelled "This is a placeholder implementation".  The
  operation is therefore modelled from the spec (definitions marked
  `Modelled from the spec:` below).

Amplitudes and times are embedded as rationals.  `removeSilence` classifies
a sample by `20 * Math.log10(Math.abs(x)) < silenceThreshold` (welcome.tsx
lines 141-144); since `t ↦ 20 * log10 t` is strictly increasing on
`[0, ∞)` (with value `-∞` at `0`), this holds iff
`|x| < 10 ^ (silenceThreshold / 20)`, so the classification is embedded in
the linear-magnitude domain against the linear threshold
`10 ^ (silenceThreshold / 20)`, kept as a parameter `thr`.
-/

/-- A detected time interval, the `{start, end}` records pushed by the code.
The source's `end` field is named `stop` here because `end` is reserved in
Lean. -/
structure Region where
  start : ℚ
  stop : ℚ
deriving DecidableEq, Repr

/-- The silence classification of `removeSilence` (welcome.tsx lines
141-144), expressed in the linear-magnitude domain: a sample `x` is silent
iff `|x| < thr`, where `thr` is the linear image `10 ^ (dB / 20)` of the
decibel threshold (see the module docstring).  The test is strict
less-than, exactly as `db < silenceThreshold` is in the source. -/
def rsIsSilent (thr x : ℚ) : Bool :=
  decide (|x| < thr)

/-- The scan loop of `removeSilence` (welcome.tsx lines 140-157), embedded
as structural recursion over the remaining samples.  `i` is the loop index,
and the `Option ℕ` state combines the source's `isSilence` flag and
`silenceStart` variable: `some s` means `isSilence = true` with
`silenceStart = s`, `none` means `isSilence = false`.  On a transition out
of silence at index `i`, the run `[s, i)` is pushed as
`{start: s / sampleRate, end: i / sampleRate}` when
`i - s >= minSilenceSamples` (lines 150-155).  When the input ends, no
run is closed: the loop simply stops (there is no flush after line 157). -/
def rsScan (thr minSilenceSamples sampleRate : ℚ) :
    List ℚ → ℕ → Option ℕ → List Region
  | [], _, _ => []
  | x :: xs, i, st =>
    if rsIsSilent thr x then
      match st with
      | some s => rsScan thr minSilenceSamples sampleRate xs (i + 1) (some s)
      | none => rsScan thr minSilenceSamples sampleRate xs (i + 1) (some i)
    else
      match st with
      | some s =>
        (if minSilenceSamples ≤ (i : ℚ) - (s : ℚ) then
          [{ start := (s : ℚ) / sampleRate, stop := (i : ℚ) / sampleRate }]
        else []) ++ rsScan thr minSilenceSamples sampleRate xs (i + 1) none
      | none => rsScan thr minSilenceSamples sampleRate xs (i + 1) none

/-- The segment list built by `removeSilence` (welcome.tsx lines 136-157):
the scan starts with `isSilence = true` and `silenceStart = 0` (lines
137-138), i.e. in state `some 0`, and `minSilenceSamples` is
`minSilenceLength * sampleRate` (line 134). -/
def removeSilenceSegments (channelData : List ℚ)
    (sampleRate thr minSilenceLength : ℚ) : List Region :=
  rsScan thr (minSilenceLength * sampleRate) sampleRate channelData 0 (some 0)

/-- Default of the `minSilenceLength` parameter of `removeSilence`
(welcome.tsx line 127: `minSilenceLength = 0.2`). -/
def removeSilenceDefaultMinSilenceLength : ℚ := 1 / 5

/-- Default of the `silenceThreshold` parameter of `removeSilence`
(welcome.tsx line 127: `silenceThreshold = -50`), in decibels.  Its linear
image `10 ^ (-50 / 20)` is irrational, so theorems about the scan keep the
linear threshold as a parameter. -/
def removeSilenceDefaultThresholdDb : ℚ := -50

/-- `totalDuration` of `removeSilence` (welcome.tsx line 159):
`nonSilentSegments.reduce((sum, segment) => sum + (segment.end - segment.start), 0)`. -/
def removeSilenceTotalDuration (segs : List Region) : ℚ :=
  segs.foldl (fun sum seg => sum + (seg.stop - seg.start)) 0

/-- Frame length of the `OfflineAudioContext` output buffer created by
`removeSilence` (welcome.tsx line 160): `totalDuration * sampleRate`. -/
def removeSilenceOutputLength (segs : List Region) (sampleRate : ℚ) : ℚ :=
  removeSilenceTotalDuration segs * sampleRate

/-- Modelled from the spec: the numbers reaching the extraction operation
are JavaScript numbers; the spec's failure semantics (section 4.1)
distinguish finite values from non-finite ones (NaN, ±Infinity), which are
collapsed into one constructor here. -/
inductive JsNumber where
  | finite (val : ℚ)
  | notFinite
deriving DecidableEq, Repr

/-- Whether a `JsNumber` is non-finite. -/
def JsNumber.isNotFinite : JsNumber → Bool
  | JsNumber.finite _ => false
  | JsNumber.notFinite => true

/-- The rational value of a finite `JsNumber` (`0` for the non-finite
constructor, which validation rules out before this is used). -/
def JsNumber.val : JsNumber → ℚ
  | JsNumber.finite q => q
  | JsNumber.notFinite => 0

/-- Modelled from the spec: the error taxonomy of section 7 — "a single
`InvalidArgument` kind, covering non-positive duration and malformed peak
data". -/
inductive ExtractError where
  | invalidArgument
deriving DecidableEq, Repr

/-- Modelled from the spec: default of `silenceThresholdMagnitude`
(section 6) — "a small fraction of full scale", an implementation-tuning
constant; `1/100` is used as the concrete small fraction. -/
def defaultSilenceThresholdMagnitude : ℚ := 1 / 100

/-- Modelled from the spec: default of `minimumSilenceLengthSeconds`
(section 6) — "default ~0.2 seconds". -/
def defaultMinimumSilenceLengthSeconds : ℚ := 1 / 5

/-- Modelled from the spec: the scan of the silence-region extractor
(section 4.1, algorithm steps 3-5), for the `./extractRegions` module that
is absent from the provided sources.  Samples are scanned left to right;
`some s` records the start index of the current silent run, `none` means
the current run is sounding.  A run is closed on a silent-to-sounding
transition, or at the end of the series while still silent; a closed run
`[s, i)` survives iff its duration `(i - s) * sps` is not below `minLen`,
and is reported as `{start: s * sps, end: i * sps}` where `sps` is the
per-sample duration. -/
def specScan (thr minLen sps : ℚ) : List ℚ → ℕ → Option ℕ → List Region
  | [], _, none => []
  | [], i, some s =>
    if minLen ≤ ((i : ℚ) - (s : ℚ)) * sps then
      [{ start := (s : ℚ) * sps, stop := (i : ℚ) * sps }]
    else []
  | x :: xs, i, none =>
    if |x| < thr then specScan thr minLen sps xs (i + 1) (some i)
    else specScan thr minLen sps xs (i + 1) none
  | x :: xs, i, some s =>
    if |x| < thr then specScan thr minLen sps xs (i + 1) (some s)
    else
      (if minLen ≤ ((i : ℚ) - (s : ℚ)) * sps then
        [{ start := (s : ℚ) * sps, stop := (i : ℚ) * sps }]
      else []) ++ specScan thr minLen sps xs (i + 1) none

/-- Modelled from the spec: `extractSilenceRegions(peaks, duration)`
(section 4.1) for the `./extractRegions` module absent from the provided
sources.  Validation fails fast with `InvalidArgument` on non-positive
duration and on non-finite peak values (sections 4.1 and 7); an empty peak
sequence yields the empty list without error (sections 4.1 and 8— the
failure-semantics aside of section 4.1 listing an empty series as
malformed is contradicted by both the contract and the test list, which
are followed here); otherwise the run-length scan is performed with
per-sample duration `duration / peaks.length` (step 1). -/
def extractSilenceRegions (peaks : List JsNumber) (duration thr minLen : ℚ) :
    Except ExtractError (List Region) :=
  if duration ≤ 0 then Except.error ExtractError.invalidArgument
  else if peaks.any JsNumber.isNotFinite then
    Except.error ExtractError.invalidArgument
  else if peaks.isEmpty then Except.ok []
  else
    Except.ok
      (specScan thr minLen (duration / (peaks.length : ℚ))
        (peaks.map JsNumber.val) 0 none)

/-- A finite peak strictly below the threshold in magnitude, as a Boolean
(used to state all-silent hypotheses decidably). -/
def jsFiniteBelow (thr : ℚ) (p : JsNumber) : Bool :=
  match p with
  | JsNumber.finite q => decide (|q| < thr)
  | JsNumber.notFinite => false

/-- Output-shape invariant of a sequential scan: every region starts no
earlier than `lo`, is a nonempty interval ending by `hi`, and each region
ends no later than the next one starts. -/
def Chained : ℚ → ℚ → List Region → Prop
  | _, _, [] => True
  | lo, hi, r :: rs =>
    lo ≤ r.start ∧ r.start < r.stop ∧ r.stop ≤ hi ∧ Chained r.stop hi rs

lemma chained_mono_lo {lo lo' hi : ℚ} {rs : List Region} (h : lo' ≤ lo) :
    Chained lo hi rs → Chained lo' hi rs := by
  cases rs with
  | nil => intro _; trivial
  | cons r rs =>
    intro hc
    exact ⟨le_trans h hc.1, hc.2.1, hc.2.2.1, hc.2.2.2⟩

lemma chained_mem {rs : List Region} :
    ∀ {lo hi : ℚ}, Chained lo hi rs →
      ∀ r ∈ rs, lo ≤ r.start ∧ r.start < r.stop ∧ r.stop ≤ hi := by
  induction rs with
  | nil => intro lo hi _ r hr; cases hr
  | cons a rs ih =>
    intro lo hi hc r hr
    rcases List.mem_cons.mp hr with h | h
    · subst h; exact ⟨hc.1, hc.2.1, hc.2.2.1⟩
    · have := ih hc.2.2.2 r h
      exact ⟨le_trans (le_trans hc.1 (le_of_lt hc.2.1)) this.1, this.2.1,
        this.2.2⟩

lemma chained_pairwise {rs : List Region} :
    ∀ {lo hi : ℚ}, Chained lo hi rs →
      rs.Pairwise (fun a b => a.stop ≤ b.start) := by
  induction rs with
  | nil => intro lo hi _; exact List.Pairwise.nil
  | cons a rs ih =>
    intro lo hi hc
    refine List.Pairwise.cons ?_ (ih hc.2.2.2)
    intro b hb
    exact (chained_mem hc.2.2.2 b hb).1

lemma chained_pairwise_start {rs : List Region} :
    ∀ {lo hi : ℚ}, Chained lo hi rs →
      rs.Pairwise (fun a b => a.start < b.start) := by
  induction rs with
  | nil => intro lo hi _; exact List.Pairwise.nil
  | cons a rs ih =>
    intro lo hi hc
    refine List.Pairwise.cons ?_ (ih hc.2.2.2)
    intro b hb
    have hm := chained_mem hc.2.2.2 b hb
    exact lt_of_lt_of_le hc.2.1 hm.1

lemma specScan_chained (thr minLen sps : ℚ) (hsps : 0 < sps) :
    ∀ (xs : List ℚ) (i : ℕ) (st : Option ℕ), (∀ s, st = some s → s < i) →
      Chained ((st.getD i : ℚ) * sps) (((i + xs.length : ℕ) : ℚ) * sps)
        (specScan thr minLen sps xs i st) := by
  intro xs
  induction xs with
  | nil =>
    intro i st hst
    cases st with
    | none => simp [specScan, Chained]
    | some s =>
      have hsi : (s : ℚ) < (i : ℚ) := by exact_mod_cast hst s rfl
      simp only [specScan, List.length_nil, Nat.add_zero, Option.getD_some]
      split
      · exact ⟨le_refl _, mul_lt_mul_of_pos_right hsi hsps, le_refl _, trivial⟩
      · trivial
  | cons x xs ih =>
    intro i st hst
    have hlen : i + (x :: xs).length = (i + 1) + xs.length := by
      simp [List.length_cons]; omega
    rw [hlen]
    by_cases hx : |x| < thr
    · cases st with
      | none =>
        have h := ih (i + 1) (some i) (by intro s hs; cases hs; omega)
        simpa [specScan, hx] using h
      | some s =>
        have h := ih (i + 1) (some s)
          (by intro t ht; cases ht; exact Nat.lt_succ_of_lt (hst s rfl))
        simpa [specScan, hx] using h
    · cases st with
      | none =>
        have h := ih (i + 1) none (by intro s hs; cases hs)
        have hlo : (i : ℚ) * sps ≤ ((i + 1 : ℕ) : ℚ) * sps := by
          have : (i : ℚ) ≤ ((i + 1 : ℕ) : ℚ) := by push_cast; linarith
          exact mul_le_mul_of_nonneg_right this (le_of_lt hsps)
        have h' := chained_mono_lo hlo (by simpa using h)
        simpa [specScan, hx] using h'
      | some s =>
        have hsi : s < i := hst s rfl
        have hrest := ih (i + 1) none (by intro t ht; cases ht)
        have hrest' : Chained (((i + 1 : ℕ) : ℚ) * sps)
            ((((i + 1) + xs.length : ℕ) : ℚ) * sps)
            (specScan thr minLen sps xs (i + 1) none) := by simpa using hrest
        simp only [specScan, hx, if_false, Option.getD_some, reduceIte]
        split
        · simp only [List.singleton_append]
          refine ⟨le_refl _, ?_, ?_, ?_⟩
          · exact mul_lt_mul_of_pos_right (by exact_mod_cast hsi) hsps
          · have : (i : ℚ) ≤ (((i + 1) + xs.length : ℕ) : ℚ) := by
              push_cast; linarith
            exact mul_le_mul_of_nonneg_right this (le_of_lt hsps)
          · refine chained_mono_lo ?_ hrest'
            have : (i : ℚ) ≤ ((i + 1 : ℕ) : ℚ) := by push_cast; linarith
            exact mul_le_mul_of_nonneg_right this (le_of_lt hsps)
        · simp only [List.nil_append]
          refine chained_mono_lo ?_ hrest'
          have : (s : ℚ) ≤ ((i + 1 : ℕ) : ℚ) := by
            push_cast
            have : (s : ℚ) < (i : ℚ) := by exact_mod_cast hsi
            linarith
          exact mul_le_mul_of_nonneg_right this (le_of_lt hsps)

lemma specScan_all_silent (thr minLen sps : ℚ) :
    ∀ (xs : List ℚ) (i s : ℕ), (∀ x ∈ xs, |x| < thr) →
      specScan thr minLen sps xs i (some s) =
        if minLen ≤ (((i + xs.length : ℕ) : ℚ) - (s : ℚ)) * sps then
          [{ start := (s : ℚ) * sps, stop := ((i + xs.length : ℕ) : ℚ) * sps }]
        else [] := by
  intro xs
  induction xs with
  | nil => intro i s _; simp [specScan]
  | cons x xs ih =>
    intro i s h
    have hx : |x| < thr := h x (List.mem_cons_self x xs)
    have hlen : i + (x :: xs).length = (i + 1) + xs.length := by
      simp [List.length_cons]; omega
    rw [hlen]
    have := ih (i + 1) s (fun y hy => h y (List.mem_cons_of_mem x hy))
    simpa [specScan, hx] using this

/-- What it means for a region of the `removeSilence` scan over `data` to
describe a silent run: it is `[s/sr, i/sr)` for indices `s ≤ i` with `i`
inside the data, every sample of `[s, i)` classified silent, the sample at
`i` classified sounding (so `i` is the first sounding index at or after
`s`), the run long enough, and `s` the index where the silent run began
(`0`, or preceded by a sounding sample). -/
def RsSegSpec (thr minS sr : ℚ) (data : List ℚ) (seg : Region) : Prop :=
  ∃ s i : ℕ,
    seg = { start := (s : ℚ) / sr, stop := (i : ℚ) / sr } ∧
    s ≤ i ∧ i < data.length ∧ minS ≤ (i : ℚ) - (s : ℚ) ∧
    rsIsSilent thr (data.getD i 0) = false ∧
    (∀ j, s ≤ j → j < i → rsIsSilent thr (data.getD j 0) = true) ∧
    (s = 0 ∨ rsIsSilent thr (data.getD (s - 1) 0) = false)

/-- Loop invariant of the `removeSilence` scan relating the state to the
already-processed prefix: in the sounding state the prefix is nonempty and
ends with a sounding sample; in the silent state `some s`, all processed
samples from `s` on are silent and `s` is where that run began. -/
def RsStOk (thr : ℚ) (pre : List ℚ) : Option ℕ → Prop
  | none => pre ≠ [] ∧ rsIsSilent thr (pre.getD (pre.length - 1) 0) = false
  | some s => s ≤ pre.length ∧
      (∀ j, s ≤ j → j < pre.length → rsIsSilent thr (pre.getD j 0) = true) ∧
      (s = 0 ∨ rsIsSilent thr (pre.getD (s - 1) 0) = false)

lemma rsStOk_extend_silent {thr : ℚ} {pre : List ℚ} {x : ℚ} {s : ℕ}
    (hx : rsIsSilent thr x = true) (h : RsStOk thr pre (some s)) :
    RsStOk thr (pre ++ [x]) (some s) := by
  obtain ⟨hs, hrun, hmax⟩ := h
  refine ⟨by simp; omega, ?_, ?_⟩
  · intro j hj hjlen
    simp only [List.length_append, List.length_singleton] at hjlen
    rcases Nat.lt_or_ge j pre.length with hcase | hcase
    · rw [List.getD_append _ _ _ _ hcase]; exact hrun j hj hcase
    · have hje : j = pre.length := by omega
      subst hje
      rw [List.getD_append_right _ _ _ _ (le_refl _)]
      simpa using hx
  · rcases hmax with h0 | hprev
    · exact Or.inl h0
    · rcases Nat.eq_zero_or_pos s with h0 | hpos
      · exact Or.inl h0
      · refine Or.inr ?_
        have : s - 1 < pre.length := by omega
        rw [List.getD_append _ _ _ _ this]; exact hprev

lemma rsStOk_start_silent {thr : ℚ} {pre : List ℚ} {x : ℚ}
    (hx : rsIsSilent thr x = true) (h : RsStOk thr pre none) :
    RsStOk thr (pre ++ [x]) (some pre.length) := by
  obtain ⟨hne, hlast⟩ := h
  have hpos : 0 < pre.length := List.length_pos.mpr hne
  refine ⟨by simp, ?_, ?_⟩
  · intro j hj hjlen
    simp only [List.length_append, List.length_singleton] at hjlen
    have hje : j = pre.length := by omega
    subst hje
    rw [List.getD_append_right _ _ _ _ (le_refl _)]
    simpa using hx
  · refine Or.inr ?_
    have : pre.length - 1 < pre.length := by omega
    rw [List.getD_append _ _ _ _ this]; exact hlast

lemma rsStOk_sounding {thr : ℚ} {pre : List ℚ} {x : ℚ}
    (hx : rsIsSilent thr x = false) :
    RsStOk thr (pre ++ [x]) none := by
  refine ⟨by simp, ?_⟩
  simp only [List.length_append, List.length_singleton, Nat.add_sub_cancel]
  rw [List.getD_append_right _ _ _ _ (le_refl _)]
  simpa using hx

lemma rsScan_mem_spec (thr minS sr : ℚ) :
    ∀ (xs pre : List ℚ) (st : Option ℕ), RsStOk thr pre st →
      ∀ seg ∈ rsScan thr minS sr xs pre.length st,
        RsSegSpec thr minS sr (pre ++ xs) seg := by
  intro xs
  induction xs with
  | nil => intro pre st _ seg hseg; simp [rsScan] at hseg
  | cons x xs ih =>
    intro pre st hst seg hseg
    have hassoc : (pre ++ [x]) ++ xs = pre ++ x :: xs := by simp
    have hlen1 : (pre ++ [x]).length = pre.length + 1 := by simp
    by_cases hx : rsIsSilent thr x = true
    · cases st with
      | some s =>
        rw [rsScan, hx] at hseg
        simp only [↓reduceIte] at hseg
        have := ih (pre ++ [x]) (some s) (rsStOk_extend_silent hx hst)
          seg (by rw [hlen1]; exact hseg)
        rwa [hassoc] at this
      | none =>
        rw [rsScan, hx] at hseg
        simp only [↓reduceIte] at hseg
        have := ih (pre ++ [x]) (some pre.length)
          (rsStOk_start_silent hx hst) seg (by rw [hlen1]; exact hseg)
        rwa [hassoc] at this
    · have hx' : rsIsSilent thr x = false := by
        cases h : rsIsSilent thr x
        · rfl
        · exact absurd h hx
      cases st with
      | none =>
        rw [rsScan, hx'] at hseg
        simp only [Bool.false_eq_true, ↓reduceIte] at hseg
        have := ih (pre ++ [x]) none (rsStOk_sounding hx')
          seg (by rw [hlen1]; exact hseg)
        rwa [hassoc] at this
      | some s =>
        rw [rsScan, hx'] at hseg
        simp only [Bool.false_eq_true, ↓reduceIte] at hseg
        rcases List.mem_append.mp hseg with hemit | hrec
        · obtain ⟨hs, hrun, hmax⟩ := hst
          by_cases hguard : minS ≤ (pre.length : ℚ) - (s : ℚ)
          · rw [if_pos hguard] at hemit
            rcases List.mem_singleton.mp hemit with rfl
            refine ⟨s, pre.length, rfl, hs, by simp, hguard, ?_, ?_, ?_⟩
            · rw [List.getD_append_right _ _ _ _ (le_refl _)]
              simpa using hx'
            · intro j hj hjlen
              rw [List.getD_append _ _ _ _ hjlen]
              exact hrun j hj hjlen
            · rcases hmax with h0 | hprev
              · exact Or.inl h0
              · rcases Nat.eq_zero_or_pos s with h0 | hpos
                · exact Or.inl h0
                · refine Or.inr ?_
                  have : s - 1 < pre.length := by omega
                  rw [List.getD_append _ _ _ _ this]; exact hprev
          · rw [if_neg hguard] at hemit
            cases hemit
        · have := ih (pre ++ [x]) none (rsStOk_sounding hx')
            seg (by rw [hlen1]; exact hrec)
          rwa [hassoc] at this

lemma rsScan_all_silent_nil (thr minS sr : ℚ) :
    ∀ (ys : List ℚ) (i : ℕ) (st : Option ℕ),
      (∀ y ∈ ys, rsIsSilent thr y = true) →
      rsScan thr minS sr ys i st = [] := by
  intro ys
  induction ys with
  | nil => intro i st _; rfl
  | cons y ys ih =>
    intro i st h
    have hy : rsIsSilent thr y = true := h y (List.mem_cons_self y ys)
    have htail : ∀ z ∈ ys, rsIsSilent thr z = true :=
      fun z hz => h z (List.mem_cons_of_mem y hz)
    cases st with
    | some s => rw [rsScan, hy]; simpa using ih (i + 1) (some s) htail
    | none => rw [rsScan, hy]; simpa using ih (i + 1) (some i) htail

lemma rsScan_append_all_silent (thr minS sr : ℚ) (ys : List ℚ)
    (hys : ∀ y ∈ ys, rsIsSilent thr y = true) :
    ∀ (xs : List ℚ) (i : ℕ) (st : Option ℕ),
      rsScan thr minS sr (xs ++ ys) i st = rsScan thr minS sr xs i st := by
  intro xs
  induction xs with
  | nil =>
    intro i st
    rw [List.nil_append, rsScan_all_silent_nil thr minS sr ys i st hys]
    rfl
  | cons x xs ih =>
    intro i st
    by_cases hx : rsIsSilent thr x = true
    · cases st with
      | some s => rw [List.cons_append, rsScan, hx, rsScan, hx]; simpa using ih (i + 1) (some s)
      | none => rw [List.cons_append, rsScan, hx, rsScan, hx]; simpa using ih (i + 1) (some i)
    · have hx' : rsIsSilent thr x = false := by
        cases h : rsIsSilent thr x
        · rfl
        · exact absurd h hx
      cases st with
      | none =>
        rw [List.cons_append, rsScan, hx', rsScan, hx']
        simpa using ih (i + 1) none
      | some s =>
        rw [List.cons_append, rsScan, hx', rsScan, hx']
        simp only [Bool.false_eq_true, ↓reduceIte]
        rw [ih (i + 1) none]

lemma foldl_add_sub (segs : List Region) :
    ∀ a : ℚ, segs.foldl (fun sum seg => sum + (seg.stop - seg.start)) a =
      a + (segs.map (fun seg => seg.stop - seg.start)).sum := by
  induction segs with
  | nil => intro a; simp
  | cons seg segs ih =>
    intro a
    simp only [List.foldl_cons, List.map_cons, List.sum_cons]
    rw [ih]
    ring

/-- Claim C1, counterexample: on the extractor modelled from the spec's
algorithm, an all-silent series does NOT always give `[{start 0, end D}]`:
with the default minimum silence length `1/5`, an all-zero series of
duration `1/10` yields `[]` (the single closed run is discarded by the
minimum-length filter of algorithm step 4), and an empty series yields `[]`
as well. -/
theorem extract_all_silent_claim_cex :
    extractSilenceRegions [JsNumber.finite 0] (1 / 10)
        defaultSilenceThresholdMagnitude defaultMinimumSilenceLengthSeconds =
      Except.ok [] ∧
    (Except.ok [] : Except ExtractError (List Region)) ≠
      Except.ok [{ start := 0, stop := 1 / 10 }] ∧
    extractSilenceRegions [] 1 defaultSilenceThresholdMagnitude
        defaultMinimumSilenceLengthSeconds = Except.ok [] ∧
    (Except.ok [] : Except ExtractError (List Region)) ≠
      Except.ok [{ start := 0, stop := 1 }] := by
  refine ⟨?_, by simp, ?_, by simp⟩
  · norm_num [extractSilenceRegions, specScan, JsNumber.isNotFinite,
      JsNumber.val, defaultSilenceThresholdMagnitude,
      defaultMinimumSilenceLengthSeconds]
  · norm_num [extractSilenceRegions, specScan, JsNumber.isNotFinite,
      JsNumber.val, defaultSilenceThresholdMagnitude,
      defaultMinimumSilenceLengthSeconds]

/-- Claim C1 (amended): for every non-empty peak series whose samples are
all finite with magnitude below the threshold, and every positive duration
that is at least `minimumSilenceLengthSeconds`, the extraction returns
exactly one interval `[{start 0, end duration}]`.  (The amendment adds the
non-emptiness of the series and the lower bound on the duration, both
forced by the counterexample.) -/
theorem extract_all_silent (peaks : List JsNumber) (duration thr minLen : ℚ)
    (hne : peaks ≠ []) (hsil : peaks.all (jsFiniteBelow thr) = true)
    (hd : 0 < duration) (hml : minLen ≤ duration) :
    extractSilenceRegions peaks duration thr minLen =
      Except.ok [{ start := 0, stop := duration }] := by
  have hall : ∀ p ∈ peaks, jsFiniteBelow thr p = true := List.all_eq_true.mp hsil
  have hfin : peaks.any JsNumber.isNotFinite = false := by
    rw [List.any_eq_false]
    intro p hp
    have := hall p hp
    cases p with
    | finite q => simp [JsNumber.isNotFinite]
    | notFinite => simp [jsFiniteBelow] at this
  have hie : peaks.isEmpty = false := by
    cases h : peaks.isEmpty
    · rfl
    · exact absurd (List.isEmpty_iff.mp h) hne
  unfold extractSilenceRegions
  rw [if_neg (not_le.mpr hd), hfin, hie]
  simp only [Bool.false_eq_true, if_false]
  obtain ⟨p, ps, rfl⟩ := List.exists_cons_of_ne_nil hne
  have hval : ∀ x ∈ (p :: ps).map JsNumber.val, |x| < thr := by
    intro x hx
    obtain ⟨q, hq, rfl⟩ := List.mem_map.mp hx
    have := hall q hq
    cases q with
    | finite v => simpa [jsFiniteBelow, JsNumber.val] using this
    | notFinite => simp [jsFiniteBelow] at this
  have hn0 : ((p :: ps).length : ℚ) ≠ 0 := by
    simp [List.length_cons]
    positivity
  have hmul : (((p :: ps).length : ℕ) : ℚ) *
      (duration / (((p :: ps).length : ℕ) : ℚ)) = duration := by
    field_simp
  simp only [List.map_cons]
  rw [specScan]
  rw [if_pos (hval (JsNumber.val p) (by simp))]
  rw [specScan_all_silent thr minLen _ (ps.map JsNumber.val) 1 0
    (fun y hy => hval y (List.mem_cons_of_mem _ hy))]
  have hlen : 1 + (ps.map JsNumber.val).length = (p :: ps).length := by
    simp [List.length_cons]; omega
  rw [hlen]
  rw [if_pos (by rw [Nat.cast_zero, sub_zero, hmul]; exact hml)]
  rw [Nat.cast_zero, zero_mul, hmul]

/-- Claim C1, witness for the amended theorem: two all-zero samples over
one second give exactly `[{start 0, end 1}]`. -/
theorem extract_all_silent_w :
    extractSilenceRegions [JsNumber.finite 0, JsNumber.finite 0] 1
        defaultSilenceThresholdMagnitude defaultMinimumSilenceLengthSeconds =
      Except.ok [{ start := 0, stop := 1 }] :=
  extract_all_silent _ _ _ _ (by simp)
    (by norm_num [jsFiniteBelow, defaultSilenceThresholdMagnitude])
    (by norm_num) (by norm_num [defaultMinimumSilenceLengthSeconds])

/-- Claim C2, counterexample: in the `removeSilence` scan, the run that is
below threshold through the very last sample is dropped.  With channel data
`[1, 0, 0, 0]`, sample rate `1` and the default minimum silence length,
the trailing run of three silent seconds satisfies the minimum-length
condition (`minSilenceSamples = 1/5 * 1 ≤ 4 - 1`) yet no segment is
produced. -/
theorem removeSilence_trailing_cex :
    removeSilenceSegments [1, 0, 0, 0] 1 (1 / 100)
        removeSilenceDefaultMinSilenceLength = [] ∧
    rsIsSilent (1 / 100) 0 = true ∧
    removeSilenceDefaultMinSilenceLength * 1 ≤ (4 : ℚ) - 1 := by
  refine ⟨?_, ?_, ?_⟩
  · norm_num [removeSilenceSegments, rsScan, rsIsSilent,
      removeSilenceDefaultMinSilenceLength]
  · norm_num [rsIsSilent]
  · norm_num [removeSilenceDefaultMinSilenceLength]

/-- Claim C2 (amended): in `removeSilence`, no run is closed at end of
scan — a below-threshold run that extends through the very last sample
contributes no segment, whatever its length: appending below-threshold
samples to any input leaves the collected segment list unchanged. -/
theorem removeSilence_trailing_silence_ignored (channelData ys : List ℚ)
    (sr thr minLen : ℚ) (h : ∀ y ∈ ys, rsIsSilent thr y = true) :
    removeSilenceSegments (channelData ++ ys) sr thr minLen =
      removeSilenceSegments channelData sr thr minLen := by
  unfold removeSilenceSegments
  exact rsScan_append_all_silent thr (minLen * sr) sr ys h channelData 0
    (some 0)

/-- Claim C2, witness for the amended theorem: appending three zero samples
to `[1, 0, 0, 0, 1]` leaves the collected segments unchanged. -/
theorem removeSilence_trailing_silence_ignored_w :
    removeSilenceSegments ([1, 0, 0, 0, 1] ++ [0, 0, 0]) 1 (1 / 100)
        (1 / 5) =
      removeSilenceSegments [1, 0, 0, 0, 1] 1 (1 / 100) (1 / 5) :=
  removeSilence_trailing_silence_ignored _ _ _ _ _ (by
    intro y hy
    simp only [List.mem_cons, List.not_mem_nil, or_false] at hy
    rcases hy with rfl | rfl | rfl <;> norm_num [rsIsSilent])

/-- Claim C3: the modelled extraction fails with `InvalidArgument` whenever
the duration is zero or negative, or some peak value is non-finite. -/
theorem extract_invalid_argument (peaks : List JsNumber)
    (duration thr minLen : ℚ)
    (h : duration ≤ 0 ∨ peaks.any JsNumber.isNotFinite = true) :
    extractSilenceRegions peaks duration thr minLen =
      Except.error ExtractError.invalidArgument := by
  unfold extractSilenceRegions
  rcases h with hd | hp
  · rw [if_pos hd]
  · by_cases hd : duration ≤ 0
    · rw [if_pos hd]
    · rw [if_neg hd, if_pos hp]

/-- Claim C3, witness: `extractSilenceRegions([0.5, 0.5], 0)` fails with
`InvalidArgument`. -/
theorem extract_invalid_argument_w :
    extractSilenceRegions [JsNumber.finite (1 / 2), JsNumber.finite (1 / 2)]
        0 defaultSilenceThresholdMagnitude
        defaultMinimumSilenceLengthSeconds =
      Except.error ExtractError.invalidArgument :=
  extract_invalid_argument _ _ _ _ (Or.inl (by norm_num))

/-- Claim C4: for peaks `[1, 1, 0, 0, 0, 1, 1]`, duration `7` and minimum
silence length `2`, the modelled extraction returns exactly
`[{start 2, end 5}]`, for every silence threshold that is positive and at
most full scale. -/
theorem extract_boundary_scenario (thr : ℚ) (h1 : 0 < thr) (h2 : thr ≤ 1) :
    extractSilenceRegions
        [JsNumber.finite 1, JsNumber.finite 1, JsNumber.finite 0,
          JsNumber.finite 0, JsNumber.finite 0, JsNumber.finite 1,
          JsNumber.finite 1] 7 thr 2 =
      Except.ok [{ start := 2, stop := 5 }] := by
  have hl : ¬ ((1 : ℚ) < thr) := not_lt.mpr h2
  norm_num [extractSilenceRegions, specScan, JsNumber.isNotFinite,
    JsNumber.val, hl, h1]

/-- Claim C4, witness: the boundary scenario at the default threshold. -/
theorem extract_boundary_scenario_w :
    extractSilenceRegions
        [JsNumber.finite 1, JsNumber.finite 1, JsNumber.finite 0,
          JsNumber.finite 0, JsNumber.finite 0, JsNumber.finite 1,
          JsNumber.finite 1] 7 defaultSilenceThresholdMagnitude 2 =
      Except.ok [{ start := 2, stop := 5 }] :=
  extract_boundary_scenario defaultSilenceThresholdMagnitude
    (by norm_num [defaultSilenceThresholdMagnitude])
    (by norm_num [defaultSilenceThresholdMagnitude])

/-- Claim C5: for every valid input (non-empty peaks, positive duration),
every interval returned by the modelled extraction satisfies
`0 ≤ start < end ≤ duration`, and the list is sorted ascending by `start`
with each interval's `end` at most the next interval's `start`. -/
theorem extract_regions_invariants (peaks : List JsNumber)
    (duration thr minLen : ℚ) (rs : List Region)
    (hne : peaks ≠ []) (hd : 0 < duration)
    (hok : extractSilenceRegions peaks duration thr minLen = Except.ok rs) :
    (∀ r ∈ rs, 0 ≤ r.start ∧ r.start < r.stop ∧ r.stop ≤ duration) ∧
    rs.Pairwise (fun a b => a.stop ≤ b.start) ∧
    rs.Pairwise (fun a b => a.start < b.start) := by
  unfold extractSilenceRegions at hok
  rw [if_neg (not_le.mpr hd)] at hok
  by_cases hf : peaks.any JsNumber.isNotFinite = true
  · rw [if_pos hf] at hok; cases hok
  · have hie : peaks.isEmpty = false := by
      cases h : peaks.isEmpty
      · rfl
      · exact absurd (List.isEmpty_iff.mp h) hne
    rw [if_neg hf, hie] at hok
    simp only [Bool.false_eq_true, if_false] at hok
    injection hok with hok
    have hn : 0 < (peaks.length : ℚ) := by
      have := List.length_pos.mpr hne
      exact_mod_cast this
    have hsps : 0 < duration / (peaks.length : ℚ) := div_pos hd hn
    have hch := specScan_chained thr minLen (duration / (peaks.length : ℚ))
      hsps (peaks.map JsNumber.val) 0 none (by intro s hs; cases hs)
    rw [hok] at hch
    have hdur : (((0 + (peaks.map JsNumber.val).length : ℕ) : ℚ)) *
        (duration / (peaks.length : ℚ)) = duration := by
      simp only [Nat.zero_add, List.length_map]
      field_simp
    rw [hdur] at hch
    have hlo : ((Option.getD (none : Option ℕ) 0 : ℕ) : ℚ) *
        (duration / (peaks.length : ℚ)) = 0 := by
      simp
    rw [hlo] at hch
    exact ⟨chained_mem hch, chained_pairwise hch, chained_pairwise_start hch⟩

/-- Claim C5, witness: a concrete valid input whose result `[{1, 4}]`
satisfies all the invariants. -/
theorem extract_regions_invariants_w :
    (∀ r ∈ [({ start := 1, stop := 4 } : Region)],
      0 ≤ r.start ∧ r.start < r.stop ∧ r.stop ≤ (5 : ℚ)) ∧
    List.Pairwise (fun a b => a.stop ≤ b.start)
      [({ start := 1, stop := 4 } : Region)] ∧
    List.Pairwise (fun a b => a.start < b.start)
      [({ start := 1, stop := 4 } : Region)] :=
  extract_regions_invariants
    [JsNumber.finite 1, JsNumber.finite 0, JsNumber.finite 0,
      JsNumber.finite 0, JsNumber.finite 1] 5 (1 / 100) (1 / 5) _
    (by simp) (by norm_num)
    (by norm_num [extractSilenceRegions, specScan, JsNumber.isNotFinite,
      JsNumber.val])

/-- Claim C6: every segment collected by the `removeSilence` scan spans at
least `minSilenceLength` seconds, and the default of the
`minSilenceLength` parameter is `0.2` seconds. -/
theorem removeSilence_min_length_invariant (channelData : List ℚ)
    (sr thr minLen : ℚ) (hsr : 0 < sr) :
    (∀ seg ∈ removeSilenceSegments channelData sr thr minLen,
      minLen ≤ seg.stop - seg.start) ∧
    removeSilenceDefaultMinSilenceLength = 1 / 5 := by
  refine ⟨?_, rfl⟩
  intro seg hseg
  have hst : RsStOk thr [] (some 0) := by
    refine ⟨Nat.zero_le _, ?_, Or.inl rfl⟩
    intro j _ hjl
    simp at hjl
  have hspec := rsScan_mem_spec thr (minLen * sr) sr channelData [] (some 0)
    hst seg (by simpa [removeSilenceSegments] using hseg)
  rw [List.nil_append] at hspec
  obtain ⟨s, i, heq, _, _, hguard, _, _, _⟩ := hspec
  rw [heq]
  simp only
  rw [div_sub_div_same, le_div_iff₀ hsr]
  exact hguard

/-- Claim C6, witness: the segment `{1, 4}` collected on
`[1, 0, 0, 0, 1]` at sample rate `1` spans at least `1/5` seconds. -/
theorem removeSilence_min_length_invariant_w :
    (1 / 5 : ℚ) ≤ ({ start := 1, stop := 4 } : Region).stop -
      ({ start := 1, stop := 4 } : Region).start :=
  (removeSilence_min_length_invariant [1, 0, 0, 0, 1] 1 (1 / 100) (1 / 5)
    (by norm_num)).1 { start := 1, stop := 4 }
    (by norm_num [removeSilenceSegments, rsScan, rsIsSilent])

/-- Claim C7: the silence classification of `removeSilence` is strict
less-than against the threshold — a sample is silent exactly when its
magnitude is strictly below the (linear image of the) threshold, and a
sample whose magnitude equals the threshold exactly is classified
sounding. -/
theorem silence_test_strict (thr x : ℚ) :
    (rsIsSilent thr x = true ↔ |x| < thr) ∧
    (|x| = thr → rsIsSilent thr x = false) := by
  constructor
  · simp [rsIsSilent]
  · intro h
    simp [rsIsSilent, h]

/-- Claim C7, witness: a sample of magnitude exactly `1/100` at threshold
`1/100` is classified sounding. -/
theorem silence_test_strict_w : rsIsSilent (1 / 100) (1 / 100) = false :=
  (silence_test_strict (1 / 100) (1 / 100)).2
    (by rw [abs_of_pos (show (0 : ℚ) < 1 / 100 by norm_num)])

/-- Claim C8: for every positive duration, the modelled extraction on an
empty peak sequence returns the empty list and no error. -/
theorem extract_empty_peaks (duration thr minLen : ℚ) (hd : 0 < duration) :
    extractSilenceRegions [] duration thr minLen = Except.ok [] := by
  unfold extractSilenceRegions
  rw [if_neg (not_le.mpr hd)]
  simp

/-- Claim C8, witness: empty peaks with duration `1`. -/
theorem extract_empty_peaks_w :
    extractSilenceRegions [] 1 defaultSilenceThresholdMagnitude
        defaultMinimumSilenceLengthSeconds = Except.ok [] :=
  extract_empty_peaks 1 defaultSilenceThresholdMagnitude
    defaultMinimumSilenceLengthSeconds (by norm_num)

/-- Claim C9: the modelled extraction is deterministic — structurally equal
inputs give structurally equal results.  (It is a pure function of its
arguments by construction: the embedding consumes and produces immutable
values, so the input peaks cannot be changed by a call.) -/
theorem extract_deterministic (peaksA peaksB : List JsNumber)
    (dA dB tA tB mA mB : ℚ) (hp : peaksA = peaksB) (hd : dA = dB)
    (ht : tA = tB) (hm : mA = mB) :
    extractSilenceRegions peaksA dA tA mA =
      extractSilenceRegions peaksB dB tB mB := by
  rw [hp, hd, ht, hm]

/-- Claim C9, witness: two calls on structurally equal concrete inputs. -/
theorem extract_deterministic_w :
    extractSilenceRegions [JsNumber.finite 0] 1
        defaultSilenceThresholdMagnitude defaultMinimumSilenceLengthSeconds =
      extractSilenceRegions [JsNumber.finite 0] 1
        defaultSilenceThresholdMagnitude defaultMinimumSilenceLengthSeconds :=
  extract_deterministic _ _ _ _ _ _ _ _ rfl rfl rfl rfl

/-- Claim C10: every segment `removeSilence` appends to
`nonSilentSegments` is a maximal run of samples that are all below the
silence threshold — its start index is where the silent run began (index
`0` or preceded by a sounding sample) and its end index is the first
sounding index after it — and the frame length of the output buffer equals
the sum of those segments' durations times the sample rate, so the audio
assembled for output consists of the detected silent spans. -/
theorem removeSilence_segments_silent_runs (channelData : List ℚ)
    (sr thr minLen : ℚ) (hsr : 0 < sr) (hmin : 0 < minLen) :
    (∀ seg ∈ removeSilenceSegments channelData sr thr minLen,
      ∃ s i : ℕ, s < i ∧ i < channelData.length ∧
        seg = { start := (s : ℚ) / sr, stop := (i : ℚ) / sr } ∧
        (∀ j, s ≤ j → j < i →
          rsIsSilent thr (channelData.getD j 0) = true) ∧
        rsIsSilent thr (channelData.getD i 0) = false ∧
        (s = 0 ∨ rsIsSilent thr (channelData.getD (s - 1) 0) = false)) ∧
    removeSilenceOutputLength
        (removeSilenceSegments channelData sr thr minLen) sr =
      ((removeSilenceSegments channelData sr thr minLen).map
        (fun seg => seg.stop - seg.start)).sum * sr := by
  constructor
  · intro seg hseg
    have hst : RsStOk thr [] (some 0) := by
      refine ⟨Nat.zero_le _, ?_, Or.inl rfl⟩
      intro j _ hjl
      simp at hjl
    have hspec := rsScan_mem_spec thr (minLen * sr) sr channelData []
      (some 0) hst seg (by simpa [removeSilenceSegments] using hseg)
    rw [List.nil_append] at hspec
    obtain ⟨s, i, heq, _, hlt, hguard, hsound, hrun, hmax⟩ := hspec
    have hpos : (0 : ℚ) < minLen * sr := mul_pos hmin hsr
    have hsi : s < i := by
      have : (s : ℚ) < (i : ℚ) := by linarith
      exact_mod_cast this
    exact ⟨s, i, hsi, hlt, heq, hrun, hsound, hmax⟩
  · unfold removeSilenceOutputLength removeSilenceTotalDuration
    rw [foldl_add_sub]
    ring

/-- Claim C10, witness: on `[1, 0, 0, 0, 1]` at sample rate `1`, the
collected segment `{1, 4}` is the silent run over indices `[1, 4)` with
index `4` its first sounding successor. -/
theorem removeSilence_segments_silent_runs_w :
    ∃ s i : ℕ, s < i ∧ i < ([1, 0, 0, 0, 1] : List ℚ).length ∧
      ({ start := 1, stop := 4 } : Region) =
        { start := (s : ℚ) / 1, stop := (i : ℚ) / 1 } ∧
      (∀ j, s ≤ j → j < i →
        rsIsSilent (1 / 100) (([1, 0, 0, 0, 1] : List ℚ).getD j 0) = true) ∧
      rsIsSilent (1 / 100) (([1, 0, 0, 0, 1] : List ℚ).getD i 0) = false ∧
      (s = 0 ∨ rsIsSilent (1 / 100)
        (([1, 0, 0, 0, 1] : List ℚ).getD (s - 1) 0) = false) :=
  (removeSilence_segments_silent_runs [1, 0, 0, 0, 1] 1 (1 / 100) (1 / 5)
    (by norm_num) (by norm_num)).1 { start := 1, stop := 4 }
    (by norm_num [removeSilenceSegments, rsScan, rsIsSilent])
